import Mathlib

/-!
Verification development for the SDL wiki conversion pipeline
(`wiki/text.py`, `wiki/man.py`, `wiki/params.py`).

The Python code is shallowly embedded: strings are `List Char` wrapped in
`String`, the file system is a map from component paths to optional contents,
the regex rewrite table of `WikiHTMLToText.sanitize` is embedded rule by rule
with the exact matching semantics of `re.sub` for each concrete pattern, and
`unicodedata.normalize("NFKC", ·)` (an external library call) is a parameter
of the embedding.
-/

namespace Wiki

/-- Line-break characters recognised by Python `str.splitlines`
(`\n`, `\r`, `\v`, `\f`, `\x1c`, `\x1d`, `\x1e`, `\x85`, ` `, ` `;
`\r\n` is treated as a single break). -/
def isBreakChar (c : Char) : Bool :=
  c = '\n' ∨ c = '\r' ∨ c = Char.ofNat 0x0b ∨ c = Char.ofNat 0x0c ∨
  c = Char.ofNat 0x1c ∨ c = Char.ofNat 0x1d ∨ c = Char.ofNat 0x1e ∨
  c = Char.ofNat 0x85 ∨ c = Char.ofNat 0x2028 ∨ c = Char.ofNat 0x2029

/-- Whitespace characters: the set stripped by Python `str.strip()` and
matched by the `\s` class of the `regex` module (ASCII whitespace, the
separator control characters, NBSP and the Unicode space separators). -/
def isPySpace (c : Char) : Bool :=
  c = ' ' ∨ c = '\t' ∨ c = '\n' ∨ c = '\r' ∨ c = Char.ofNat 0x0b ∨
  c = Char.ofNat 0x0c ∨ c = Char.ofNat 0x1c ∨ c = Char.ofNat 0x1d ∨
  c = Char.ofNat 0x1e ∨ c = Char.ofNat 0x1f ∨ c = Char.ofNat 0x85 ∨
  c = Char.ofNat 0xa0 ∨ c = Char.ofNat 0x1680 ∨
  (0x2000 ≤ c.toNat ∧ c.toNat ≤ 0x200a) ∨
  c = Char.ofNat 0x2028 ∨ c = Char.ofNat 0x2029 ∨ c = Char.ofNat 0x202f ∨
  c = Char.ofNat 0x205f ∨ c = Char.ofNat 0x3000

/-- Python `str.splitlines`: split at every line break, `\r\n` counting as a
single break; a final segment without terminator is kept; the empty string
yields no lines. -/
def pySplitlines : List Char → List (List Char)
  | [] => []
  | [c] => if isBreakChar c then [[]] else [[c]]
  | c :: d :: cs =>
    if c = '\r' ∧ d = '\n' then [] :: pySplitlines cs
    else if isBreakChar c then [] :: pySplitlines (d :: cs)
    else
      match pySplitlines (d :: cs) with
      | [] => [[c]]
      | l :: ls => (c :: l) :: ls

/-- `"\n".join(lines)` of `WikiHTMLToText.sanitize`: one `\n` between
consecutive lines, nothing appended after the last. -/
def joinNL : List (List Char) → List Char
  | [] => []
  | [l] => l
  | l :: l2 :: ls => l ++ '\n' :: joinNL (l2 :: ls)

/-- Python `str.strip()`: drop leading and trailing whitespace. -/
def pyStripL (l : List Char) : List Char :=
  ((l.dropWhile isPySpace).reverse.dropWhile isPySpace).reverse

/-- `str.strip()` at the `String` level. -/
def pyStrip (s : String) : String :=
  ⟨pyStripL s.data⟩

/-- U+201C LEFT DOUBLE QUOTATION MARK. -/
def lq : Char := Char.ofNat 0x201C

/-- U+201D RIGHT DOUBLE QUOTATION MARK. -/
def rq : Char := Char.ofNat 0x201D

/-- Rules `“ -> "` and `” -> "` of the sanitize table. -/
def mapQuotes (l : List Char) : List Char :=
  l.map fun c => if c = lq ∨ c = rq then '"' else c

/-- Replacement text of the horizontal-line rules. -/
def hrComment : List Char :=
  "<!-- Horizontal line omitted for PDF and MAN -->".data

/-- Rule `^----$ -> hrComment`: the whole line is replaced iff it is
exactly `----` (no `re.MULTILINE`, lines carry no newline). -/
def applyHr3 (l : List Char) : List Char :=
  if l = "----".data then hrComment else l

/-- Rule `^----\s*$ -> hrComment`: the whole line is replaced iff it is
`----` followed only by whitespace. -/
def applyHr4 (l : List Char) : List Char :=
  if l.take 4 = "----".data ∧ (l.drop 4).all isPySpace then hrComment else l

/-- Split a list at the first character satisfying `p`; the matched
character is returned in neither part. -/
def splitAtFirst (p : Char → Bool) : List Char → Option (List Char × List Char)
  | [] => none
  | c :: cs =>
    if p c then some ([], cs)
    else (splitAtFirst p cs).map fun ab => (c :: ab.1, ab.2)

/-- First occurrence of the two-character sequence `](`; returns the part
before it and the part after it. -/
def findSub2 : List Char → Option (List Char × List Char)
  | [] => none
  | c :: cs =>
    if c = ']' ∧ cs.take 1 = ['('] then some ([], cs.drop 1)
    else (findSub2 cs).map fun ab => (c :: ab.1, ab.2)

/-- One `re.sub` pass of `\[(.*?)\]\(.*?\)` (inline links, keep the link
text): scan left to right; at `[`, the lazy group runs to the first `](`
that is followed by some `)`, the lazy URL runs to the first `)`; the match
is replaced by the group and scanning resumes after the match. The fuel is
an upper bound on the number of scanning steps (each step consumes at least
one input character); with fuel exhausted the rest is emitted unchanged. -/
def stripInlineGo : Nat → List Char → List Char
  | 0, l => l
  | _ + 1, [] => []
  | fuel + 1, c :: cs =>
    if c = '[' then
      match findSub2 cs with
      | some (g, rest1) =>
        match splitAtFirst (fun d => d = ')') rest1 with
        | some (_, after) => g ++ stripInlineGo fuel after
        | none => c :: stripInlineGo fuel cs
      | none => c :: stripInlineGo fuel cs
    else c :: stripInlineGo fuel cs

/-- Rule `\[(.*?)\]\(.*?\) -> \1`. -/
def stripInline (l : List Char) : List Char :=
  stripInlineGo l.length l

/-- One `re.sub` pass of `\[([^\]]+)\]\[[^\]]+\]` (reference links, keep
the link text): both bracketed parts are maximal nonempty runs of
non-`]` characters. -/
def stripRefGo : Nat → List Char → List Char
  | 0, l => l
  | _ + 1, [] => []
  | fuel + 1, c :: cs =>
    if c = '[' then
      match splitAtFirst (fun d => d = ']') cs with
      | some (g, rest1) =>
        if g = [] then c :: stripRefGo fuel cs
        else if rest1.take 1 = ['['] then
          match splitAtFirst (fun d => d = ']') (rest1.drop 1) with
          | some (r, rest3) =>
            if r = [] then c :: stripRefGo fuel cs
            else g ++ stripRefGo fuel rest3
          | none => c :: stripRefGo fuel cs
        else c :: stripRefGo fuel cs
      | none => c :: stripRefGo fuel cs
    else c :: stripRefGo fuel cs

/-- Rule `\[([^\]]+)\]\[[^\]]+\] -> \1`. -/
def stripRef (l : List Char) : List Char :=
  stripRefGo l.length l

/-- Does the list contain the adjacent pair `]:`? -/
def hasBrColon : List Char → Bool
  | [] => false
  | [_] => false
  | c :: d :: cs => if c = ']' ∧ d = ':' then true else hasBrColon (d :: cs)

/-- Rule `^\[.*?\]:\s?.*?$ -> ""` (link-reference definitions): a line is
erased iff it starts with `[` and contains `]:` somewhere after it. -/
def applyRefDef (l : List Char) : List Char :=
  if l.take 1 = ['['] ∧ hasBrColon l then [] else l

/-- Rule `\(\) -> ""`: remove every non-overlapping occurrence of `()`,
scanning left to right and resuming after each match. -/
def removeParens : List Char → List Char
  | [] => []
  | [c] => [c]
  | c :: d :: cs =>
    if c = '(' ∧ d = ')' then removeParens cs
    else c :: removeParens (d :: cs)

/-- The per-line rewrite of `WikiHTMLToText.sanitize`: the eight rules of
the pattern table applied in insertion order. -/
def sanitizeLine (l : List Char) : List Char :=
  removeParens (applyRefDef (stripRef (stripInline (applyHr4 (applyHr3 (mapQuotes l))))))

/-- `WikiHTMLToText.sanitize` on raw character data: split into lines,
rewrite each line, rejoin with `\n`. -/
def sanitizeL (blob : List Char) : List Char :=
  joinNL ((pySplitlines blob).map sanitizeLine)

/-- `WikiHTMLToText.sanitize`. -/
def sanitize (s : String) : String :=
  ⟨sanitizeL s.data⟩

/-- `WikiHTMLToText.normalize`: NFKC normalization followed by
`str.strip()`. The NFKC transform is the external `unicodedata` call and is
a parameter of the embedding. -/
def normalize (nfkc : String → String) (s : String) : String :=
  pyStrip (nfkc s)

/-- `pathlib.PurePath.suffix` of a file name: the part from the last dot,
provided that dot is neither the first nor the last character; otherwise
the empty suffix. -/
def pySuffixL (name : List Char) : List Char :=
  match splitAtFirst (fun c => c = '.') name.reverse with
  | some (a, b) => if a ≠ [] ∧ b ≠ [] then '.' :: a.reverse else []
  | none => []

/-- `pathlib.PurePath.suffix` at the `String` level. -/
def pySuffix (name : String) : String :=
  ⟨pySuffixL name.data⟩

/-- `pathlib.PurePath.with_suffix(".md")` on a file name: replace the
suffix when there is one, append `.md` otherwise. -/
def withSuffixMdL (name : List Char) : List Char :=
  match splitAtFirst (fun c => c = '.') name.reverse with
  | some (a, b) => if a ≠ [] ∧ b ≠ [] then b.reverse ++ ".md".data else name ++ ".md".data
  | none => name ++ ".md".data

/-- `with_suffix(".md")` at the `String` level. -/
def withSuffixMd (name : String) : String :=
  ⟨withSuffixMdL name.data⟩

/-- A path is its list of components (relative to the repository root for
source files, relative to the filesystem root for IR files). -/
abbrev CPath := List String

/-- The last component of a path (`pathlib.PurePath.name`). -/
def lastComp : CPath → String
  | [] => ""
  | [x] => x
  | _ :: y :: l => lastComp (y :: l)

/-- The file system: contents indexed by path. -/
def FS := CPath → Option String

/-- Overwrite (`pathlib.Path.write_text`): the write fully replaces any
prior content at the path. -/
def FS.update (fs : FS) (p : CPath) (v : String) : FS :=
  fun q => if q = p then some v else fs q

/-- `self.params.IR_DIR / relative_path.with_suffix(".md")`: the derived
IRFile path of `WikiHTMLToText.process_file`. -/
def irPath (irRoot : CPath) (rel : CPath) : CPath :=
  irRoot ++ (rel.dropLast ++ [withSuffixMd (lastComp rel)])

/-- `WikiHTMLToText.process_file` on one discovered source file with
relative path `rel` and raw content `raw`: `.html` files go through the
external HTML→Markdown converter `conv`, `.md` files are taken as read,
anything else is skipped without output; obtained text is normalized,
sanitized, given one trailing newline and written to the derived IR path. -/
def processFile (nfkc conv : String → String) (irRoot : CPath) (fs : FS)
    (rel : CPath) (raw : String) : FS :=
  if pySuffix (lastComp rel) = ".html" then
    fs.update (irPath irRoot rel) (sanitize (normalize nfkc (conv raw)) ++ "\n")
  else if pySuffix (lastComp rel) = ".md" then
    fs.update (irPath irRoot rel) (sanitize (normalize nfkc raw) ++ "\n")
  else fs

/-- One discovered file in a `WikiHTMLToText.convert` batch: its relative
path, its raw content, and whether its worker raises an exception (the
external converter or file I/O failing). -/
structure ConvTask where
  rel : CPath
  raw : String
  fails : Bool
deriving DecidableEq

/-- Is the task's extension one of the two supported ones? -/
def supportedTask (t : ConvTask) : Prop :=
  pySuffix (lastComp t.rel) = ".html" ∨ pySuffix (lastComp t.rel) = ".md"

/-- The text a supported task is converted from: the external converter's
output for `.html`, the raw text for `.md`. -/
def taskText (conv : String → String) (t : ConvTask) : String :=
  if pySuffix (lastComp t.rel) = ".html" then conv t.raw else t.raw

/-- The aggregation loop of `WikiHTMLToText.convert`: each completed worker
increments `processed`; a worker exception is caught and increments
`failed`; there is no separate count for skipped unsupported files. One
completion order of the thread pool is modelled; the counts and the set of
writes are order-independent because distinct workers write distinct
paths. -/
def runTasks (nfkc conv : String → String) (irRoot : CPath) :
    FS → Nat → Nat → List ConvTask → FS × Nat × Nat
  | fs, p, f, [] => (fs, p, f)
  | fs, p, f, t :: ts =>
    if t.fails then runTasks nfkc conv irRoot fs p (f + 1) ts
    else runTasks nfkc conv irRoot (processFile nfkc conv irRoot fs t.rel t.raw) (p + 1) f ts

/-- A directory of the IR tree: its regular files (name, content) and its
subdirectories, in the order the operating system happens to enumerate
them (`os.walk` does not sort directory names). -/
inductive DirTree : Type where
  | node : List (String × String) → List (String × DirTree) → DirTree

/-- Code-point lexicographic comparison, as Python string `<=`. -/
def lexLe : List Char → List Char → Bool
  | [], _ => true
  | _ :: _, [] => false
  | a :: as, b :: bs => if a = b then lexLe as bs else decide (a < b)

/-- Python `sorted(files)` over the file entries of one directory: sort by
name, code-point lexicographically. -/
def sortFiles (files : List (String × String)) : List (String × String) :=
  files.insertionSort fun a b => lexLe a.1.data b.1.data

/-- Python `file.endswith(".md")`. -/
def isMdName (n : String) : Bool :=
  n.data.reverse.take 3 = ['d', 'm', '.']

/-- The contribution of one directory's own files to the combined document:
names sorted, `.md` only, each content followed by one newline. -/
def filesText (files : List (String × String)) : String :=
  ((sortFiles files).filter fun fc => isMdName fc.1).foldl
    (fun acc fc => acc ++ fc.2 ++ "\n") ""

mutual

/-- `WikiHTMLToText.concatenate` restricted to one IR sub-tree: `os.walk`
top-down order — the root's files first (names sorted per directory), then
each subdirectory in enumeration order, recursively. -/
def walkConcat : DirTree → String
  | .node files dirs => filesText files ++ walkConcatDirs dirs

/-- `walkConcat` over the subdirectory list in enumeration order. -/
def walkConcatDirs : List (String × DirTree) → String
  | [] => ""
  | (_, t) :: ds => walkConcat t ++ walkConcatDirs ds

end

/-- `WikiHTMLToText.concatenate`: the IR version directories in
`SourceTree` list order, each walked by `walkConcat`; the result is the
combined document's content. -/
def concatenate (trees : List DirTree) : String :=
  String.join (trees.map walkConcat)

mutual

/-- The `.md` files of a sub-tree as (relative path, content) pairs, in the
order `walkConcat` emits them. -/
def walkMd : DirTree → List (String × String)
  | .node files dirs =>
    ((sortFiles files).filter fun fc => isMdName fc.1) ++ walkMdDirs dirs

/-- `walkMd` over the subdirectory list, prefixing the directory name. -/
def walkMdDirs : List (String × DirTree) → List (String × String)
  | [] => []
  | (d, t) :: ds =>
    ((walkMd t).map fun pc => (d ++ "/" ++ pc.1, pc.2)) ++ walkMdDirs ds

end

mutual

/-- The `.md` files of a sub-tree as (relative path, content) pairs, in raw
enumeration order (no sorting at all). -/
def allMd : DirTree → List (String × String)
  | .node files dirs => (files.filter fun fc => isMdName fc.1) ++ allMdDirs dirs

/-- `allMd` over the subdirectory list, prefixing the directory name. -/
def allMdDirs : List (String × DirTree) → List (String × String)
  | [] => []
  | (d, t) :: ds =>
    ((allMd t).map fun pc => (d ++ "/" ++ pc.1, pc.2)) ++ allMdDirs ds

end

/-- The combined document as claimed by the specification: within each
sub-tree the `.md` files sorted code-point lexicographically by full
relative path, sub-trees in `SourceTree` list order, contents joined with
one newline between files. -/
def specConcatenate (trees : List DirTree) : String :=
  String.intercalate "\n"
    ((trees.flatMap fun t =>
      (allMd t).insertionSort fun a b => lexLe a.1.data b.1.data).map fun fc => fc.2)

/-- `line.startswith("# ")` of `WikiTextToMan.generate_meta_data`. -/
def isHeading (l : String) : Bool :=
  l.data.take 2 = ['#', ' ']

/-- Python truthiness of the `title` variable in
`WikiTextToMan.generate_meta_data`: `None` and the empty string are falsy. -/
def pyTruthy : Option String → Bool
  | none => false
  | some v => v ≠ ""

/-- `WikiTextToMan.generate_meta_data`, title part: scan the lines; a line
starting with `# ` (re)assigns the title to its trimmed remainder; any
other line stops the scan when a (truthy) title is set and the line has
nonempty strip (the description line); otherwise the scan continues. -/
def genTitleAux : List String → Option String → Option String
  | [], t => t
  | l :: ls, t =>
    if isHeading l then
      genTitleAux ls (some (pyStrip ⟨l.data.drop 2⟩))
    else if pyTruthy t ∧ pyStrip l ≠ "" then t
    else genTitleAux ls t

/-- The title `WikiTextToMan.generate_meta_data` extracts from a file given
as its list of lines. -/
def genTitle (lines : List String) : Option String :=
  genTitleAux lines none

/-- Rejoining the rewritten lines with `\n` cannot re-materialise a final
empty line: this is what `pySplitlines` recovers from `joinNL`. -/
def dropTrailingEmptyLine (ls : List (List Char)) : List (List Char) :=
  if ls.getLast? = some [] then ls.dropLast else ls

/-! ### `str.strip` is idempotent -/

theorem dropWhile_dropWhile (p : Char → Bool) (l : List Char) :
    (l.dropWhile p).dropWhile p = l.dropWhile p := by
  induction l with
  | nil => simp
  | cons c cs ih =>
    by_cases h : p c
    · simp [List.dropWhile_cons, h, ih]
    · simp [List.dropWhile_cons, h]

theorem dropWhile_head_false {p : Char → Bool} {c : Char} {cs : List Char}
    (h : List.dropWhile p (c :: cs) = c :: cs) : p c = false := by
  have := List.head?_dropWhile_not p (c :: cs)
  rw [h] at this
  simpa using this

theorem dropWhile_fix_of_fix {p : Char → Bool} {z : List Char}
    (hz : z.dropWhile p = z) :
    (((z.reverse.dropWhile p).reverse).dropWhile p) = (z.reverse.dropWhile p).reverse := by
  cases z with
  | nil => simp
  | cons c cs =>
    have hc : p c = false := dropWhile_head_false hz
    rw [List.reverse_cons, List.dropWhile_append]
    by_cases he : (cs.reverse.dropWhile p).isEmpty
    · rw [if_pos he]
      simp [List.dropWhile_cons, hc]
    · rw [if_neg he, List.reverse_append]
      simp [List.dropWhile_cons, hc]

theorem pyStripL_idem (l : List Char) : pyStripL (pyStripL l) = pyStripL l := by
  unfold pyStripL
  have h1 : (((l.dropWhile isPySpace).reverse.dropWhile isPySpace).reverse).dropWhile isPySpace
      = ((l.dropWhile isPySpace).reverse.dropWhile isPySpace).reverse :=
    dropWhile_fix_of_fix (dropWhile_dropWhile _ _)
  rw [h1, List.reverse_reverse, dropWhile_dropWhile]

theorem pyStrip_idem (s : String) : pyStrip (pyStrip s) = pyStrip s := by
  unfold pyStrip
  exact congrArg String.mk (pyStripL_idem s.data)

/-! ### Structure of the scanning helpers -/

theorem splitAtFirst_eq {p : Char → Bool} :
    ∀ {l a b : List Char}, splitAtFirst p l = some (a, b) →
      ∃ c, l = a ++ c :: b ∧ p c = true
  | [], a, b => by simp [splitAtFirst]
  | c :: cs, a, b => by
    intro h
    rw [splitAtFirst] at h
    by_cases hc : p c
    · rw [if_pos hc] at h
      obtain ⟨rfl, rfl⟩ : a = [] ∧ cs = b := by
        simpa using h
      exact ⟨c, by simp, hc⟩
    · rw [if_neg hc] at h
      match hrec : splitAtFirst p cs with
      | none => rw [hrec] at h; simp at h
      | some (a', b') =>
        rw [hrec] at h
        obtain ⟨rfl, rfl⟩ : a = c :: a' ∧ b = b' := by
          simpa using h.symm
        obtain ⟨d, hd, hpd⟩ := splitAtFirst_eq hrec
        exact ⟨d, by simp [hd], hpd⟩

theorem findSub2_eq :
    ∀ {l g r : List Char}, findSub2 l = some (g, r) → l = g ++ ']' :: '(' :: r := by
  intro l
  induction l with
  | nil => intro g r h; simp [findSub2] at h
  | cons c cs ih =>
    intro g r h
    rw [findSub2] at h
    by_cases hc : c = ']' ∧ cs.take 1 = ['(']
    · rw [if_pos hc] at h
      obtain ⟨rfl, rfl⟩ : g = [] ∧ cs.tail = r := by
        simpa using h
      have hcs : cs = '(' :: cs.drop 1 := by
        conv_lhs => rw [← List.take_append_drop 1 cs]
        rw [hc.2]
        simp
      rw [hc.1]
      simpa using hcs
    · rw [if_neg hc] at h
      match hrec : findSub2 cs with
      | none => rw [hrec] at h; simp at h
      | some (a', b') =>
        rw [hrec] at h
        obtain ⟨rfl, rfl⟩ : g = c :: a' ∧ r = b' := by
          simpa using h.symm
        have := ih hrec
        simp [this]

/-! ### Character inventory of the rewrite rules -/

theorem mem_mapQuotes {c : Char} {l : List Char} (h : c ∈ mapQuotes l) :
    c = '"' ∨ c ∈ l := by
  unfold mapQuotes at h
  obtain ⟨d, hd, hc⟩ := List.mem_map.mp h
  by_cases hq : d = lq ∨ d = rq
  · rw [if_pos hq] at hc; exact Or.inl hc.symm
  · rw [if_neg hq] at hc; exact Or.inr (hc ▸ hd)

theorem mem_applyHr3 {c : Char} {l : List Char} (h : c ∈ applyHr3 l) :
    c ∈ l ∨ c ∈ hrComment := by
  unfold applyHr3 at h
  by_cases hc : l = "----".data
  · rw [if_pos hc] at h; exact Or.inr h
  · rw [if_neg hc] at h; exact Or.inl h

theorem mem_applyHr4 {c : Char} {l : List Char} (h : c ∈ applyHr4 l) :
    c ∈ l ∨ c ∈ hrComment := by
  unfold applyHr4 at h
  by_cases hc : l.take 4 = "----".data ∧ (l.drop 4).all isPySpace
  · rw [if_pos hc] at h; exact Or.inr h
  · rw [if_neg hc] at h; exact Or.inl h

theorem mem_stripInlineGo :
    ∀ (fuel : Nat) {l : List Char} {c : Char}, c ∈ stripInlineGo fuel l → c ∈ l
  | 0, l, c => fun h => h
  | _ + 1, [], c => fun h => by simp [stripInlineGo] at h
  | fuel + 1, d :: cs, c => by
    intro h
    rw [stripInlineGo] at h
    by_cases hd : d = '['
    · simp only [if_pos hd] at h
      match hf : findSub2 cs with
      | some (g, rest1) =>
        simp only [hf] at h
        match hs : splitAtFirst (fun e => decide (e = ')')) rest1 with
        | some (u, after) =>
          simp only [hs] at h
          rcases List.mem_append.mp h with hg | hrec
          · have hcs : cs = g ++ ']' :: '(' :: rest1 := findSub2_eq hf
            exact List.mem_cons_of_mem d (hcs ▸ List.mem_append_left _ hg)
          · have hafter := mem_stripInlineGo fuel hrec
            obtain ⟨e, he, -⟩ := splitAtFirst_eq hs
            have h1 : c ∈ rest1 := he ▸ List.mem_append_right _ (List.mem_cons_of_mem e hafter)
            have hcs : cs = g ++ ']' :: '(' :: rest1 := findSub2_eq hf
            refine List.mem_cons_of_mem d ?_
            rw [hcs]
            exact List.mem_append_right _ (by simp [h1])
        | none =>
          simp only [hs] at h
          rcases List.mem_cons.mp h with rfl | hrec
          · exact List.mem_cons_self c cs
          · exact List.mem_cons_of_mem d (mem_stripInlineGo fuel hrec)
      | none =>
        simp only [hf] at h
        rcases List.mem_cons.mp h with rfl | hrec
        · exact List.mem_cons_self c cs
        · exact List.mem_cons_of_mem d (mem_stripInlineGo fuel hrec)
    · simp only [if_neg hd] at h
      rcases List.mem_cons.mp h with rfl | hrec
      · exact List.mem_cons_self c cs
      · exact List.mem_cons_of_mem d (mem_stripInlineGo fuel hrec)

theorem take_one_eq_cons {l : List Char} {c : Char} (h : l.take 1 = [c]) :
    l = c :: l.drop 1 := by
  conv_lhs => rw [← List.take_append_drop 1 l]
  rw [h]
  simp

theorem mem_stripRefGo :
    ∀ (fuel : Nat) {l : List Char} {c : Char}, c ∈ stripRefGo fuel l → c ∈ l
  | 0, l, c => fun h => h
  | _ + 1, [], c => fun h => by simp [stripRefGo] at h
  | fuel + 1, d :: cs, c => by
    intro h
    rw [stripRefGo] at h
    by_cases hd : d = '['
    · simp only [if_pos hd] at h
      match hs1 : splitAtFirst (fun e => decide (e = ']')) cs with
      | some (g, rest1) =>
        simp only [hs1] at h
        obtain ⟨e1, he1, -⟩ := splitAtFirst_eq hs1
        by_cases hg : g = []
        · simp only [if_pos hg] at h
          rcases List.mem_cons.mp h with rfl | hrec
          · exact List.mem_cons_self c cs
          · exact List.mem_cons_of_mem d (mem_stripRefGo fuel hrec)
        · simp only [if_neg hg] at h
          by_cases hbr : rest1.take 1 = ['[']
          · simp only [if_pos hbr] at h
            match hs2 : splitAtFirst (fun e => decide (e = ']')) (rest1.drop 1) with
            | some (r, rest3) =>
              simp only [hs2] at h
              obtain ⟨e2, he2, -⟩ := splitAtFirst_eq hs2
              by_cases hr : r = []
              · simp only [if_pos hr] at h
                rcases List.mem_cons.mp h with rfl | hrec
                · exact List.mem_cons_self c cs
                · exact List.mem_cons_of_mem d (mem_stripRefGo fuel hrec)
              · simp only [if_neg hr] at h
                rcases List.mem_append.mp h with hcg | hrec
                · exact List.mem_cons_of_mem d (he1 ▸ List.mem_append_left _ hcg)
                · have h3 : c ∈ rest3 := mem_stripRefGo fuel hrec
                  have h2 : c ∈ rest1.drop 1 :=
                    he2 ▸ List.mem_append_right _ (List.mem_cons_of_mem e2 h3)
                  have h1 : c ∈ rest1 := (take_one_eq_cons hbr) ▸ List.mem_cons_of_mem _ h2
                  refine List.mem_cons_of_mem d ?_
                  rw [he1]
                  exact List.mem_append_right _ (List.mem_cons_of_mem e1 h1)
            | none =>
              simp only [hs2] at h
              rcases List.mem_cons.mp h with rfl | hrec
              · exact List.mem_cons_self c cs
              · exact List.mem_cons_of_mem d (mem_stripRefGo fuel hrec)
          · simp only [if_neg hbr] at h
            rcases List.mem_cons.mp h with rfl | hrec
            · exact List.mem_cons_self c cs
            · exact List.mem_cons_of_mem d (mem_stripRefGo fuel hrec)
      | none =>
        simp only [hs1] at h
        rcases List.mem_cons.mp h with rfl | hrec
        · exact List.mem_cons_self c cs
        · exact List.mem_cons_of_mem d (mem_stripRefGo fuel hrec)
    · simp only [if_neg hd] at h
      rcases List.mem_cons.mp h with rfl | hrec
      · exact List.mem_cons_self c cs
      · exact List.mem_cons_of_mem d (mem_stripRefGo fuel hrec)

theorem mem_applyRefDef {c : Char} {l : List Char} (h : c ∈ applyRefDef l) :
    c ∈ l := by
  unfold applyRefDef at h
  by_cases hb : l.take 1 = ['['] ∧ hasBrColon l
  · rw [if_pos hb] at h; simp at h
  · rw [if_neg hb] at h; exact h

theorem mem_removeParens :
    ∀ {l : List Char} {c : Char}, c ∈ removeParens l → c ∈ l
  | [], c => fun h => h
  | [d], c => fun h => h
  | d :: e :: cs, c => by
    intro h
    rw [removeParens] at h
    by_cases hp : d = '(' ∧ e = ')'
    · rw [if_pos hp] at h
      exact List.mem_cons_of_mem _ (List.mem_cons_of_mem _ (mem_removeParens h))
    · rw [if_neg hp] at h
      rcases List.mem_cons.mp h with rfl | hrec
      · exact List.mem_cons_self c _
      · exact List.mem_cons_of_mem d (mem_removeParens hrec)

/-- All characters a rewritten line can contain: characters of the input
line, the straight quote, or characters of the horizontal-rule comment. -/
theorem mem_sanitizeLine {c : Char} {l : List Char} (h : c ∈ sanitizeLine l) :
    c ∈ l ∨ c = '"' ∨ c ∈ hrComment := by
  unfold sanitizeLine at h
  have h1 := mem_applyRefDef (mem_removeParens h)
  have h2 := mem_stripInlineGo _ (mem_stripRefGo _ h1)
  rcases mem_applyHr4 h2 with h3 | h3
  · rcases mem_applyHr3 h3 with h4 | h4
    · rcases mem_mapQuotes h4 with h5 | h5
      · exact Or.inr (Or.inl h5)
      · exact Or.inl h5
    · exact Or.inr (Or.inr h4)
  · exact Or.inr (Or.inr h3)

/-! ### The rewrite rules fix lines without their trigger characters -/

theorem mapQuotes_id {l : List Char} (h : ∀ c ∈ l, c ≠ lq ∧ c ≠ rq) :
    mapQuotes l = l := by
  unfold mapQuotes
  rw [List.map_congr_left, List.map_id]
  intro c hc
  have := h c hc
  simp [this.1, this.2]

theorem mapQuotes_no_quote {c : Char} {l : List Char} (h : c ∈ mapQuotes l) :
    c ≠ lq ∧ c ≠ rq := by
  unfold mapQuotes at h
  obtain ⟨d, -, hc⟩ := List.mem_map.mp h
  by_cases hq : d = lq ∨ d = rq
  · rw [if_pos hq] at hc
    subst hc
    refine ⟨?_, ?_⟩ <;> decide
  · rw [if_neg hq] at hc
    subst hc
    exact ⟨fun he => hq (Or.inl he), fun he => hq (Or.inr he)⟩

theorem stripInlineGo_id :
    ∀ (fuel : Nat) {l : List Char}, (∀ c ∈ l, c ≠ '[') → stripInlineGo fuel l = l
  | 0, l => fun _ => rfl
  | _ + 1, [] => fun _ => rfl
  | fuel + 1, c :: cs => by
    intro h
    rw [stripInlineGo]
    have hc : ¬ c = '[' := h c (List.mem_cons_self _ _)
    rw [if_neg hc, stripInlineGo_id fuel fun d hd => h d (List.mem_cons_of_mem c hd)]

theorem stripRefGo_id :
    ∀ (fuel : Nat) {l : List Char}, (∀ c ∈ l, c ≠ '[') → stripRefGo fuel l = l
  | 0, l => fun _ => rfl
  | _ + 1, [] => fun _ => rfl
  | fuel + 1, c :: cs => by
    intro h
    rw [stripRefGo]
    have hc : ¬ c = '[' := h c (List.mem_cons_self _ _)
    rw [if_neg hc, stripRefGo_id fuel fun d hd => h d (List.mem_cons_of_mem c hd)]

theorem removeParens_id :
    ∀ {l : List Char}, (∀ c ∈ l, c ≠ '(') → removeParens l = l
  | [] => fun _ => rfl
  | [c] => fun _ => rfl
  | c :: d :: cs => by
    intro h
    rw [removeParens]
    have hc : ¬ (c = '(' ∧ d = ')') := fun hp => h c (List.mem_cons_self _ _) hp.1
    rw [if_neg hc, removeParens_id fun e he => h e (List.mem_cons_of_mem c he)]

theorem applyRefDef_id {l : List Char} (h : ∀ c ∈ l, c ≠ '[') :
    applyRefDef l = l := by
  unfold applyRefDef
  match l with
  | [] => rfl
  | c :: cs =>
    have hc : c ≠ '[' := h c (List.mem_cons_self _ _)
    rw [if_neg]
    intro hcontra
    exact hc (by simpa using hcontra.1)

/-- The horizontal-rule comment contains none of the trigger characters of
the other rules and no line break, and is not itself a `----` line. -/
theorem hrComment_clean :
    (∀ c ∈ hrComment, c ≠ '[' ∧ c ≠ '(' ∧ c ≠ lq ∧ c ≠ rq ∧ isBreakChar c = false) ∧
      hrComment ≠ "----".data ∧ hrComment.take 4 ≠ "----".data ∧ hrComment ≠ [] := by
  decide

/-- A line fixed by every rule after the quote pass is fixed by
`sanitizeLine`. -/
theorem sanitizeLine_eq_hr {l : List Char} (h1 : ∀ c ∈ l, c ≠ '[')
    (h2 : ∀ c ∈ l, c ≠ '(') :
    sanitizeLine l = applyHr4 (applyHr3 (mapQuotes l)) := by
  unfold sanitizeLine
  have hm : ∀ c ∈ mapQuotes l, c ≠ '[' ∧ c ≠ '(' := by
    intro c hc
    rcases mem_mapQuotes hc with rfl | hc'
    · refine ⟨?_, ?_⟩ <;> decide
    · exact ⟨h1 c hc', h2 c hc'⟩
  have hy : ∀ c ∈ applyHr4 (applyHr3 (mapQuotes l)), c ≠ '[' ∧ c ≠ '(' := by
    intro c hc
    rcases mem_applyHr4 hc with hc' | hc'
    · rcases mem_applyHr3 hc' with hc'' | hc''
      · exact hm c hc''
      · have := hrComment_clean.1 c hc''
        exact ⟨this.1, this.2.1⟩
    · have := hrComment_clean.1 c hc'
      exact ⟨this.1, this.2.1⟩
  unfold stripInline stripRef
  rw [stripInlineGo_id _ fun c hc => (hy c hc).1]
  rw [stripRefGo_id _ fun c hc => (hy c hc).1]
  rw [applyRefDef_id fun c hc => (hy c hc).1]
  rw [removeParens_id fun c hc => (hy c hc).2]

/-- The horizontal-rule comment is a fixed point of the per-line rewrite. -/
theorem sanitizeLine_comment : sanitizeLine hrComment = hrComment := by decide

/-- On a line without `[` and `(`, applying the rule table twice is the
same as applying it once. -/
theorem sanitizeLine_idem_of {l : List Char} (h1 : ∀ c ∈ l, c ≠ '[')
    (h2 : ∀ c ∈ l, c ≠ '(') :
    sanitizeLine (sanitizeLine l) = sanitizeLine l := by
  rw [sanitizeLine_eq_hr h1 h2]
  have hm1 : ∀ c ∈ mapQuotes l, c ≠ '[' := by
    intro c hc
    rcases mem_mapQuotes hc with rfl | hc'
    · decide
    · exact h1 c hc'
  have hm2 : ∀ c ∈ mapQuotes l, c ≠ '(' := by
    intro c hc
    rcases mem_mapQuotes hc with rfl | hc'
    · decide
    · exact h2 c hc'
  unfold applyHr3
  by_cases h3 : mapQuotes l = "----".data
  · rw [if_pos h3]
    unfold applyHr4
    rw [if_neg]
    · exact sanitizeLine_comment
    · intro hco
      exact hrComment_clean.2.2.1 hco.1
  · rw [if_neg h3]
    unfold applyHr4
    by_cases h4 : (mapQuotes l).take 4 = "----".data ∧ ((mapQuotes l).drop 4).all isPySpace
    · rw [if_pos h4]
      exact sanitizeLine_comment
    · rw [if_neg h4]
      rw [sanitizeLine_eq_hr hm1 hm2]
      rw [mapQuotes_id fun c hc => mapQuotes_no_quote hc]
      unfold applyHr3
      rw [if_neg h3]
      unfold applyHr4
      rw [if_neg h4]

/-- On a line without `[` and `(`, the rewrite of a nonempty line is
nonempty. -/
theorem sanitizeLine_ne_nil_of {l : List Char} (h1 : ∀ c ∈ l, c ≠ '[')
    (h2 : ∀ c ∈ l, c ≠ '(') (hne : l ≠ []) :
    sanitizeLine l ≠ [] := by
  rw [sanitizeLine_eq_hr h1 h2]
  unfold applyHr4 applyHr3
  have hmq : mapQuotes l ≠ [] := by
    unfold mapQuotes
    simpa using hne
  split_ifs with hc1 hc2 hc3 <;>
    first
      | exact hrComment_clean.2.2.2
      | exact hmq

/-! ### Splitting and rejoining lines -/

theorem pySplitlines_subset :
    ∀ {cs : List Char}, ∀ l ∈ pySplitlines cs, ∀ c ∈ l, c ∈ cs
  | [] => by simp [pySplitlines]
  | [d] => by
    intro l hl c hc
    rw [pySplitlines] at hl
    by_cases hb : isBreakChar d
    · rw [if_pos hb] at hl
      simp at hl
      subst hl
      simp at hc
    · rw [if_neg hb] at hl
      simp at hl
      subst hl
      simpa using hc
  | d :: e :: cs => by
    intro l hl c hc
    rw [pySplitlines] at hl
    by_cases hb1 : d = '\r' ∧ e = '\n'
    · rw [if_pos hb1] at hl
      rcases List.mem_cons.mp hl with rfl | hl'
      · simp at hc
      · exact List.mem_cons_of_mem d (List.mem_cons_of_mem e
          (pySplitlines_subset l hl' c hc))
    · rw [if_neg hb1] at hl
      by_cases hb2 : isBreakChar d
      · rw [if_pos hb2] at hl
        rcases List.mem_cons.mp hl with rfl | hl'
        · simp at hc
        · exact List.mem_cons_of_mem d (pySplitlines_subset l hl' c hc)
      · rw [if_neg hb2] at hl
        match hrec : pySplitlines (e :: cs) with
        | [] =>
          rw [hrec] at hl
          simp at hl
          subst hl
          rw [List.mem_singleton.mp hc]
          exact List.mem_cons_self _ _
        | l0 :: ls =>
          rw [hrec] at hl
          simp only at hl
          rcases List.mem_cons.mp hl with rfl | hl'
          · rcases List.mem_cons.mp hc with rfl | hc'
            · exact List.mem_cons_self c _
            · exact List.mem_cons_of_mem d
                (pySplitlines_subset l0 (hrec ▸ List.mem_cons_self l0 ls) c hc')
          · exact List.mem_cons_of_mem d
              (pySplitlines_subset l (hrec ▸ List.mem_cons_of_mem l0 hl') c hc)

theorem pySplitlines_breakfree :
    ∀ {cs : List Char}, ∀ l ∈ pySplitlines cs, ∀ c ∈ l, isBreakChar c = false
  | [] => by simp [pySplitlines]
  | [d] => by
    intro l hl c hc
    rw [pySplitlines] at hl
    by_cases hb : isBreakChar d
    · rw [if_pos hb] at hl
      simp at hl
      subst hl
      simp at hc
    · rw [if_neg hb] at hl
      simp at hl
      subst hl
      rw [List.mem_singleton.mp hc]
      simpa using hb
  | d :: e :: cs => by
    intro l hl c hc
    rw [pySplitlines] at hl
    by_cases hb1 : d = '\r' ∧ e = '\n'
    · rw [if_pos hb1] at hl
      rcases List.mem_cons.mp hl with rfl | hl'
      · simp at hc
      · exact pySplitlines_breakfree l hl' c hc
    · rw [if_neg hb1] at hl
      by_cases hb2 : isBreakChar d
      · rw [if_pos hb2] at hl
        rcases List.mem_cons.mp hl with rfl | hl'
        · simp at hc
        · exact pySplitlines_breakfree l hl' c hc
      · rw [if_neg hb2] at hl
        match hrec : pySplitlines (e :: cs) with
        | [] =>
          rw [hrec] at hl
          simp at hl
          subst hl
          rw [List.mem_singleton.mp hc]
          simpa using hb2
        | l0 :: ls =>
          rw [hrec] at hl
          simp only at hl
          rcases List.mem_cons.mp hl with rfl | hl'
          · rcases List.mem_cons.mp hc with rfl | hc'
            · simpa using hb2
            · exact pySplitlines_breakfree l0 (hrec ▸ List.mem_cons_self l0 ls) c hc'
          · exact pySplitlines_breakfree l (hrec ▸ List.mem_cons_of_mem l0 hl') c hc

theorem pySplitlines_break_cons (rest : List Char) :
    pySplitlines ('\n' :: rest) = [] :: pySplitlines rest := by
  match rest with
  | [] => rfl
  | r :: rs =>
    rw [pySplitlines, if_neg (fun hp => absurd hp.1 (by decide)), if_pos (by decide)]

theorem pySplitlines_append_break :
    ∀ (l : List Char), (∀ c ∈ l, isBreakChar c = false) →
      ∀ rest, pySplitlines (l ++ '\n' :: rest) = l :: pySplitlines rest
  | [] => fun _ rest => by
    rw [List.nil_append, pySplitlines_break_cons]
  | c :: l' => fun h rest => by
    have hc : isBreakChar c = false := h c (List.mem_cons_self _ _)
    have hcr : c ≠ '\r' := by
      intro he
      rw [he] at hc
      exact absurd hc (by decide)
    have hcb : ¬ (isBreakChar c = true) := by simp [hc]
    cases l' with
    | nil =>
      show pySplitlines (c :: '\n' :: rest) = [c] :: pySplitlines rest
      rw [pySplitlines, if_neg (fun hp => hcr hp.1), if_neg hcb]
      simp only [pySplitlines_break_cons]
    | cons e l'' =>
      have hrec := pySplitlines_append_break (e :: l'')
        (fun d hd => h d (List.mem_cons_of_mem c hd)) rest
      rw [List.cons_append] at hrec
      rw [List.cons_append, List.cons_append, pySplitlines,
        if_neg (fun hp => hcr hp.1), if_neg hcb]
      simp only [hrec]

theorem pySplitlines_breakfree_ne :
    ∀ (l : List Char), (∀ c ∈ l, isBreakChar c = false) → l ≠ [] →
      pySplitlines l = [l]
  | [] => fun _ hne => absurd rfl hne
  | [d] => fun h _ => by
    rw [pySplitlines, if_neg]
    simpa using h d (List.mem_cons_self _ _)
  | d :: e :: cs => fun h _ => by
    have hd : isBreakChar d = false := h d (List.mem_cons_self _ _)
    have hdr : d ≠ '\r' := by
      intro he
      rw [he] at hd
      exact absurd hd (by decide)
    have hrec := pySplitlines_breakfree_ne (e :: cs)
      (fun x hx => h x (List.mem_cons_of_mem d hx)) (by simp)
    rw [pySplitlines, if_neg (fun hp => hdr hp.1), if_neg (by simp [hd])]
    simp only [hrec]

theorem pySplitlines_joinNL :
    ∀ (ls : List (List Char)), (∀ l ∈ ls, ∀ c ∈ l, isBreakChar c = false) →
      pySplitlines (joinNL ls) = dropTrailingEmptyLine ls
  | [] => fun _ => by
    rw [joinNL]
    rfl
  | [l] => fun h => by
    rw [joinNL]
    by_cases hl : l = []
    · subst hl
      decide
    · unfold dropTrailingEmptyLine
      rw [if_neg (by simpa using hl)]
      exact pySplitlines_breakfree_ne l (h l (List.mem_cons_self _ _)) hl
  | l :: l2 :: ls => fun h => by
    rw [joinNL, pySplitlines_append_break l (h l (List.mem_cons_self _ _)),
      pySplitlines_joinNL (l2 :: ls) fun x hx => h x (List.mem_cons_of_mem l hx)]
    unfold dropTrailingEmptyLine
    rw [List.getLast?_cons_cons]
    by_cases he : (l2 :: ls).getLast? = some []
    · rw [if_pos he, if_pos he]
      rfl
    · rw [if_neg he, if_neg he]

/-- Rewritten lines of break-free lines are break-free. -/
theorem sanitizeLine_breakfree {l : List Char} (h : ∀ c ∈ l, isBreakChar c = false) :
    ∀ c ∈ sanitizeLine l, isBreakChar c = false := by
  intro c hc
  rcases mem_sanitizeLine hc with h' | h' | h'
  · exact h c h'
  · subst h'
    decide
  · exact (hrComment_clean.1 c h').2.2.2.2

/-! ### The sanitize pass at blob level -/

theorem sanitize_line_map_breakfree (ls : List (List Char))
    (h : ∀ l ∈ ls, ∀ c ∈ l, isBreakChar c = false) :
    ∀ l ∈ ls.map sanitizeLine, ∀ c ∈ l, isBreakChar c = false := by
  intro l hl c hc
  obtain ⟨l0, hl0, rfl⟩ := List.mem_map.mp hl
  exact sanitizeLine_breakfree (h l0 hl0) c hc

/-- Applying the per-line rewrite twice over a list of lines without `[`
and `(` equals applying it once. -/
theorem map_sanitizeLine_idem :
    ∀ (ls : List (List Char)), (∀ l ∈ ls, ∀ c ∈ l, c ≠ '[') →
      (∀ l ∈ ls, ∀ c ∈ l, c ≠ '(') →
      List.map sanitizeLine (List.map sanitizeLine ls) = List.map sanitizeLine ls
  | [] => fun _ _ => rfl
  | l :: ls => fun h1 h2 => by
    rw [List.map_cons, List.map_cons,
      sanitizeLine_idem_of (h1 l (List.mem_cons_self _ _)) (h2 l (List.mem_cons_self _ _)),
      map_sanitizeLine_idem ls (fun x hx => h1 x (List.mem_cons_of_mem l hx))
        (fun x hx => h2 x (List.mem_cons_of_mem l hx))]

/-- C2 (amended): sanitize is not idempotent in general — the
empty-parentheses rule can itself produce a new `()` occurrence — but it is
idempotent on every string that contains no `[` and no `(` and whose line
split does not end in an empty line. -/
theorem sanitize_idem_core (s : String) (h1 : ∀ c ∈ s.data, c ≠ '[')
    (h2 : ∀ c ∈ s.data, c ≠ '(')
    (h3 : ¬ (pySplitlines s.data).getLast? = some []) :
    sanitize (sanitize s) = sanitize s := by
  have hlineBr : ∀ l ∈ pySplitlines s.data, ∀ c ∈ l, isBreakChar c = false :=
    fun l hl => pySplitlines_breakfree l hl
  have hline1 : ∀ l ∈ pySplitlines s.data, ∀ c ∈ l, c ≠ '[' :=
    fun l hl c hc => h1 c (pySplitlines_subset l hl c hc)
  have hline2 : ∀ l ∈ pySplitlines s.data, ∀ c ∈ l, c ≠ '(' :=
    fun l hl c hc => h2 c (pySplitlines_subset l hl c hc)
  have hmapBr := sanitize_line_map_breakfree (pySplitlines s.data) hlineBr
  have hlast : ¬ ((pySplitlines s.data).map sanitizeLine).getLast? = some [] := by
    rw [List.getLast?_map]
    match hg : (pySplitlines s.data).getLast? with
    | none => simp
    | some l =>
      intro hco
      simp only [Option.map_some'] at hco
      have hfl : sanitizeLine l = [] := by simpa using hco
      have hmem : l ∈ pySplitlines s.data := List.mem_of_getLast?_eq_some hg
      have hne : l ≠ [] := fun he => h3 (by rw [hg, he])
      exact sanitizeLine_ne_nil_of (hline1 l hmem) (hline2 l hmem) hne hfl
  show sanitize ⟨sanitizeL s.data⟩ = ⟨sanitizeL s.data⟩
  unfold sanitize
  congr 1
  show sanitizeL (sanitizeL s.data) = sanitizeL s.data
  unfold sanitizeL
  rw [pySplitlines_joinNL ((pySplitlines s.data).map sanitizeLine) hmapBr]
  unfold dropTrailingEmptyLine
  rw [if_neg hlast, map_sanitizeLine_idem (pySplitlines s.data) hline1 hline2]

/-! ### File-system effects of the conversion worker -/

theorem FS.update_self (fs : FS) (p : CPath) (v : String) :
    fs.update p v p = some v := by
  unfold FS.update
  rw [if_pos rfl]

theorem FS.update_other (fs : FS) {p q : CPath} (v : String) (h : q ≠ p) :
    fs.update p v q = fs q := by
  unfold FS.update
  rw [if_neg h]

theorem processFile_out (nfkc conv : String → String) (irRoot : CPath) (fs : FS)
    (rel : CPath) (raw : String)
    (hsup : pySuffix (lastComp rel) = ".html" ∨ pySuffix (lastComp rel) = ".md") :
    processFile nfkc conv irRoot fs rel raw (irPath irRoot rel) =
      some (sanitize (normalize nfkc
        (if pySuffix (lastComp rel) = ".html" then conv raw else raw)) ++ "\n") := by
  unfold processFile
  rcases hsup with h | h
  · rw [if_pos h, if_pos h]
    exact FS.update_self _ _ _
  · have hne : pySuffix (lastComp rel) ≠ ".html" := by
      rw [h]
      decide
    rw [if_neg hne, if_pos h, if_neg hne]
    exact FS.update_self _ _ _

theorem processFile_other (nfkc conv : String → String) (irRoot : CPath) (fs : FS)
    (rel : CPath) (raw : String) {q : CPath} (h : q ≠ irPath irRoot rel) :
    processFile nfkc conv irRoot fs rel raw q = fs q := by
  unfold processFile
  split_ifs with h1 h2
  · exact FS.update_other _ _ h
  · exact FS.update_other _ _ h
  · rfl

theorem processFile_skip (nfkc conv : String → String) (irRoot : CPath) (fs : FS)
    (rel : CPath) (raw : String) (h1 : pySuffix (lastComp rel) ≠ ".html")
    (h2 : pySuffix (lastComp rel) ≠ ".md") (q : CPath) :
    processFile nfkc conv irRoot fs rel raw q = fs q := by
  unfold processFile
  rw [if_neg h1, if_neg h2]

/-! ### The aggregation loop -/

theorem runTasks_counts (nfkc conv : String → String) (irRoot : CPath) :
    ∀ (ts : List ConvTask) (fs : FS) (p f : Nat),
      (runTasks nfkc conv irRoot fs p f ts).2.1 = p + ts.countP (fun t => !t.fails) ∧
      (runTasks nfkc conv irRoot fs p f ts).2.2 = f + ts.countP (fun t => t.fails)
  | [] => fun fs p f => by simp [runTasks]
  | t :: ts => fun fs p f => by
    rw [runTasks]
    by_cases hf : t.fails
    · rw [if_pos hf]
      have h := runTasks_counts nfkc conv irRoot ts fs p (f + 1)
      refine ⟨?_, ?_⟩
      · rw [h.1, List.countP_cons]
        simp [hf]
      · rw [h.2, List.countP_cons]
        simp only [hf, if_pos]
        omega
    · rw [if_neg hf]
      have h := runTasks_counts nfkc conv irRoot ts
        (processFile nfkc conv irRoot fs t.rel t.raw) (p + 1) f
      refine ⟨?_, ?_⟩
      · rw [h.1, List.countP_cons]
        have : (!t.fails) = true := by simp [hf]
        simp only [this, if_pos]
        omega
      · rw [h.2, List.countP_cons]
        simp [hf]

theorem runTasks_fs_untouched (nfkc conv : String → String) (irRoot : CPath) :
    ∀ (ts : List ConvTask) (fs : FS) (p f : Nat) (q : CPath),
      q ∉ ts.map (fun t => irPath irRoot t.rel) →
      (runTasks nfkc conv irRoot fs p f ts).1 q = fs q
  | [] => fun fs p f q _ => rfl
  | t :: ts => fun fs p f q hq => by
    rw [List.map_cons] at hq
    have hq1 : q ≠ irPath irRoot t.rel := fun he => hq (he ▸ List.mem_cons_self _ _)
    have hq2 : q ∉ ts.map (fun u => irPath irRoot u.rel) :=
      fun hm => hq (List.mem_cons_of_mem _ hm)
    rw [runTasks]
    by_cases hf : t.fails
    · rw [if_pos hf]
      exact runTasks_fs_untouched nfkc conv irRoot ts fs p (f + 1) q hq2
    · rw [if_neg hf]
      rw [runTasks_fs_untouched nfkc conv irRoot ts _ (p + 1) f q hq2]
      exact processFile_other nfkc conv irRoot fs t.rel t.raw hq1

theorem runTasks_writes (nfkc conv : String → String) (irRoot : CPath) :
    ∀ (ts : List ConvTask) (fs : FS) (p f : Nat),
      (ts.map (fun t => irPath irRoot t.rel)).Nodup →
      ∀ t ∈ ts, t.fails = false → supportedTask t →
        (runTasks nfkc conv irRoot fs p f ts).1 (irPath irRoot t.rel) =
          some (sanitize (normalize nfkc (taskText conv t)) ++ "\n")
  | [] => fun fs p f _ t ht => absurd ht (List.not_mem_nil t)
  | t0 :: ts => fun fs p f hnd t ht htf hts => by
    rw [List.map_cons] at hnd
    have hnd' := List.nodup_cons.mp hnd
    rw [runTasks]
    rcases List.mem_cons.mp ht with rfl | hmem
    · rw [if_neg (by simp [htf])]
      rw [runTasks_fs_untouched nfkc conv irRoot ts _ (p + 1) f _ hnd'.1]
      unfold taskText
      exact processFile_out nfkc conv irRoot fs t.rel t.raw hts
    · by_cases hf : t0.fails
      · rw [if_pos hf]
        exact runTasks_writes nfkc conv irRoot ts fs p (f + 1) hnd'.2 t hmem htf hts
      · rw [if_neg hf]
        exact runTasks_writes nfkc conv irRoot ts
          (processFile nfkc conv irRoot fs t0.rel t0.raw) (p + 1) f hnd'.2 t hmem htf hts

/-! ### Injectivity of the derived-path mapping on a fixed extension -/

theorem withSuffixMdL_inj {n1 n2 : List Char}
    (hs : pySuffixL n1 = pySuffixL n2) (hw : withSuffixMdL n1 = withSuffixMdL n2) :
    n1 = n2 := by
  unfold pySuffixL at hs
  unfold withSuffixMdL at hw
  match h1 : splitAtFirst (fun c => c = '.') n1.reverse,
      h2 : splitAtFirst (fun c => c = '.') n2.reverse with
  | none, none =>
    simp only [h1, h2] at hw
    exact List.append_cancel_right hw
  | none, some (a2, b2) =>
    simp only [h1, h2] at hs hw
    by_cases hc2 : a2 ≠ [] ∧ b2 ≠ []
    · rw [if_pos hc2] at hs
      exact absurd hs.symm (by simp)
    · rw [if_neg hc2] at hw
      exact List.append_cancel_right hw
  | some (a1, b1), none =>
    simp only [h1, h2] at hs hw
    by_cases hc1 : a1 ≠ [] ∧ b1 ≠ []
    · rw [if_pos hc1] at hs
      exact absurd hs (by simp)
    · rw [if_neg hc1] at hw
      exact List.append_cancel_right hw
  | some (a1, b1), some (a2, b2) =>
    simp only [h1, h2] at hs hw
    by_cases hc1 : a1 ≠ [] ∧ b1 ≠ []
    · by_cases hc2 : a2 ≠ [] ∧ b2 ≠ []
      · rw [if_pos hc1, if_pos hc2] at hs hw
        have ha : a1 = a2 := by
          have := List.cons.injEq '.' a1.reverse '.' a2.reverse ▸ hs
          rw [← List.reverse_inj]
          simpa using hs
        have hb : b1 = b2 := by
          have hbr : b1.reverse = b2.reverse := List.append_cancel_right hw
          rwa [List.reverse_inj] at hbr
        obtain ⟨c1, he1, hp1⟩ := splitAtFirst_eq h1
        obtain ⟨c2, he2, hp2⟩ := splitAtFirst_eq h2
        have hc1' : c1 = '.' := by simpa using hp1
        have hc2' : c2 = '.' := by simpa using hp2
        rw [← List.reverse_inj, he1, he2, ha, hb, hc1', hc2']
      · rw [if_pos hc1, if_neg hc2] at hs
        exact absurd hs (by simp)
    · by_cases hc2 : a2 ≠ [] ∧ b2 ≠ []
      · rw [if_neg hc1, if_pos hc2] at hs
        exact absurd hs.symm (by simp)
      · rw [if_neg hc1, if_neg hc2] at hw
        exact List.append_cancel_right hw

theorem dropLast_append_lastComp :
    ∀ (l : CPath), l ≠ [] → l.dropLast ++ [lastComp l] = l
  | [x], _ => rfl
  | x :: y :: l, _ => by
    have h := dropLast_append_lastComp (y :: l) (by simp)
    show x :: ((y :: l).dropLast ++ [lastComp (y :: l)]) = x :: y :: l
    rw [h]

theorem irPath_inj {irRoot : CPath} {p q : CPath} (hp : p ≠ []) (hq : q ≠ [])
    (hs : pySuffix (lastComp p) = pySuffix (lastComp q))
    (heq : irPath irRoot p = irPath irRoot q) : p = q := by
  unfold irPath at heq
  have h1 := List.append_cancel_left heq
  have h2 := congrArg List.reverse h1
  rw [List.reverse_append, List.reverse_append] at h2
  simp only [List.reverse_cons, List.reverse_nil, List.nil_append,
    List.singleton_append] at h2
  have hw : withSuffixMd (lastComp p) = withSuffixMd (lastComp q) :=
    (List.cons_eq_cons.mp h2).1
  have hd : p.dropLast = q.dropLast := by
    have := (List.cons_eq_cons.mp h2).2
    rwa [List.reverse_inj] at this
  have hwd : withSuffixMdL (lastComp p).data = withSuffixMdL (lastComp q).data :=
    congrArg String.data hw
  have hsd : pySuffixL (lastComp p).data = pySuffixL (lastComp q).data :=
    congrArg String.data hs
  have hname : lastComp p = lastComp q :=
    String.ext (withSuffixMdL_inj hsd hwd)
  rw [← dropLast_append_lastComp p hp, ← dropLast_append_lastComp q hq, hd, hname]

/-! ### The combined document in walk order -/

/-- Concatenation of file contents, each followed by one newline. -/
def mdBody : List (String × String) → String
  | [] => ""
  | fc :: fcs => fc.2 ++ "\n" ++ mdBody fcs

theorem foldl_mdBody :
    ∀ (L : List (String × String)) (s : String),
      L.foldl (fun acc fc => acc ++ fc.2 ++ "\n") s = s ++ mdBody L
  | [] => fun s => by
    rw [List.foldl_nil, mdBody, String.append_empty]
  | fc :: fcs => fun s => by
    rw [List.foldl_cons, foldl_mdBody fcs, mdBody, ← String.append_assoc,
      ← String.append_assoc]

theorem mdBody_append (a b : List (String × String)) :
    mdBody (a ++ b) = mdBody a ++ mdBody b := by
  induction a with
  | nil => rw [List.nil_append, mdBody, String.empty_append]
  | cons fc fcs ih =>
    rw [List.cons_append, mdBody, mdBody, ih, String.append_assoc,
      String.append_assoc, String.append_assoc]

theorem mdBody_map_rebase (d : String) (L : List (String × String)) :
    mdBody (L.map fun pc => (d ++ "/" ++ pc.1, pc.2)) = mdBody L := by
  induction L with
  | nil => rfl
  | cons fc fcs ih => rw [List.map_cons, mdBody, ih, mdBody]

mutual

theorem walkConcat_eq_mdBody : ∀ t : DirTree, walkConcat t = mdBody (walkMd t)
  | .node files dirs => by
    rw [walkConcat, walkMd, mdBody_append, walkConcatDirs_eq_mdBody dirs]
    unfold filesText
    rw [foldl_mdBody, String.empty_append]

theorem walkConcatDirs_eq_mdBody :
    ∀ ds : List (String × DirTree), walkConcatDirs ds = mdBody (walkMdDirs ds)
  | [] => rfl
  | (d, t) :: ds => by
    rw [walkConcatDirs, walkMdDirs, mdBody_append, mdBody_map_rebase,
      walkConcat_eq_mdBody t, walkConcatDirs_eq_mdBody ds]

end

mutual

theorem walkMd_perm : ∀ t : DirTree, (walkMd t).Perm (allMd t)
  | .node files dirs => by
    rw [walkMd, allMd]
    refine List.Perm.append ?_ (walkMdDirs_perm dirs)
    unfold sortFiles
    exact (List.perm_insertionSort _ files).filter _

theorem walkMdDirs_perm :
    ∀ ds : List (String × DirTree), (walkMdDirs ds).Perm (allMdDirs ds)
  | [] => List.Perm.refl _
  | (d, t) :: ds => by
    rw [walkMdDirs, allMdDirs]
    exact List.Perm.append ((walkMd_perm t).map _) (walkMdDirs_perm ds)

end

/-! ### Title extraction -/

theorem genTitleAux_no_heading :
    ∀ (ls : List String) (t : Option String), (∀ l ∈ ls, ¬ isHeading l) →
      genTitleAux ls t = t
  | [] => fun t _ => rfl
  | l :: ls => fun t h => by
    rw [genTitleAux, if_neg (by simpa using h l (List.mem_cons_self _ _))]
    by_cases hb : pyTruthy t ∧ pyStrip l ≠ ""
    · rw [if_pos hb]
    · rw [if_neg hb]
      exact genTitleAux_no_heading ls t fun x hx => h x (List.mem_cons_of_mem l hx)

theorem countP_not_fails (ts : List ConvTask) :
    ts.countP (fun t => !t.fails) + ts.countP (fun t => t.fails) = ts.length := by
  induction ts with
  | nil => rfl
  | cons t ts ih =>
    by_cases hf : t.fails <;> simp [List.countP_cons, hf] <;> omega

/-! ### Claims -/

/-- A sub-tree whose directories happen to be enumerated in the order
`b`, `a` by the operating system. -/
def cexTree : DirTree :=
  .node [] [("b", .node [("x.md", "X")] []), ("a", .node [("y.md", "Y")] [])]

/-- C1, counterexample: `concatenate` emits `b/x.md` before `a/y.md`
because `os.walk` visits subdirectories in enumeration order and only the
file names within one directory are sorted; the claimed full-relative-path
order would emit `a/y.md` first and would not put a newline after the last
file. -/
theorem concatenate_not_spec_order :
    concatenate [cexTree] = "X\nY\n" ∧ specConcatenate [cexTree] = "Y\nX" ∧
      concatenate [cexTree] ≠ specConcatenate [cexTree] := by
  decide

/-- C1 (amended): the combined document is the concatenation, over the IR
sub-trees in SourceTree list order, of each sub-tree's `.md` files in walk
order — the directory's own files first with names sorted per directory,
then each subdirectory in enumeration order recursively — each file content
followed by one newline; every `.md` file of the tree appears exactly once
(the walk-order listing is a permutation of the raw enumeration). -/
theorem concatenate_walk_order (trees : List DirTree) :
    concatenate trees = String.join (trees.map fun t => mdBody (walkMd t)) ∧
      ∀ t ∈ trees, (walkMd t).Perm (allMd t) := by
  refine ⟨?_, fun t _ => walkMd_perm t⟩
  unfold concatenate
  exact congrArg String.join (List.map_congr_left fun t _ => walkConcat_eq_mdBody t)

/-- C2, counterexample: the empty-parentheses rule applied to `(())`
removes the inner pair and leaves a fresh `()` that only a second pass
removes, so applying the table twice differs from applying it once. -/
theorem sanitize_not_idempotent :
    sanitize "(())" = "()" ∧ sanitize (sanitize "(())") = "" ∧
      sanitize (sanitize "(())") ≠ sanitize "(())" := by
  decide

/-- C2, witness of the amended theorem at a concrete bracket-free input. -/
theorem sanitize_idem_core_witness :
    sanitize (sanitize "hi “w”\nbye") = sanitize "hi “w”\nbye" :=
  sanitize_idem_core _ (by decide) (by decide) (by decide)

/-- C3: for a supported source file (`.html` or `.md`), `process_file`
writes to the derived IR path exactly the sanitized normalized text — the
converter's output for `.html`, the raw text for `.md` — with one trailing
newline appended, fully replacing any prior content, and leaves every
other path untouched. -/
theorem processFile_writes_ir (nfkc conv : String → String) (irRoot : CPath)
    (fs : FS) (rel : CPath) (raw : String)
    (hsup : pySuffix (lastComp rel) = ".html" ∨ pySuffix (lastComp rel) = ".md") :
    processFile nfkc conv irRoot fs rel raw (irPath irRoot rel) =
      some (sanitize (normalize nfkc
        (if pySuffix (lastComp rel) = ".html" then conv raw else raw)) ++ "\n") ∧
    ∀ q, q ≠ irPath irRoot rel → processFile nfkc conv irRoot fs rel raw q = fs q :=
  ⟨processFile_out nfkc conv irRoot fs rel raw hsup,
    fun _ hq => processFile_other nfkc conv irRoot fs rel raw hq⟩

/-- C3, witness: a `.md` file is written at its derived path with content
normalized, sanitized and newline-terminated; an unrelated path is
untouched. -/
theorem processFile_writes_ir_witness :
    processFile id id ["ir"] (fun _ => none) ["SDL2", "Init.md"] " hi "
        (irPath ["ir"] ["SDL2", "Init.md"]) = some "hi\n" ∧
    processFile id id ["ir"] (fun _ => none) ["SDL2", "Init.md"] " hi " ["other"] = none := by
  have h := processFile_writes_ir id id ["ir"] (fun _ => none) ["SDL2", "Init.md"] " hi "
    (Or.inr (by decide))
  exact ⟨h.1.trans (by decide), h.2 ["other"] (by decide)⟩

/-- C4, counterexample: two distinct supported source files, `a.html` and
`a.md`, derive the same IR output path `a.md`, so the claimed injectivity
over all supported files fails. -/
theorem irPath_collision :
    irPath ["ir"] ["a.html"] = irPath ["ir"] ["a.md"] ∧
      (["a.html"] : CPath) ≠ ["a.md"] ∧
      pySuffix (lastComp ["a.html"]) = ".html" ∧
      pySuffix (lastComp ["a.md"]) = ".md" := by
  decide

/-- C4 (amended): the SourceFile-to-IRFile path mapping is injective on
source files sharing the same extension — two distinct discovered files
with equal suffix always derive distinct IR output paths; collisions can
occur only between files that differ exactly in their extension. -/
theorem irPath_inj_same_ext (irRoot : CPath) (p q : CPath) (hp : p ≠ [])
    (hq : q ≠ []) (hs : pySuffix (lastComp p) = pySuffix (lastComp q))
    (hne : p ≠ q) :
    irPath irRoot p ≠ irPath irRoot q :=
  fun he => hne (irPath_inj hp hq hs he)

/-- C4, witness: two distinct `.html` files derive distinct IR paths. -/
theorem irPath_inj_same_ext_witness :
    irPath ["ir"] ["a.html"] ≠ irPath ["ir"] ["b.html"] :=
  irPath_inj_same_ext ["ir"] ["a.html"] ["b.html"]
    (by decide) (by decide) (by decide) (by decide)

/-- C5: if exactly one worker in the batch raises, the failed count is
exactly one, every other task still completes (processed equals batch size
minus one), and every non-failing supported file's IRFile is written with
its expected content — one failure never aborts the run. -/
theorem convert_isolates_failure (nfkc conv : String → String) (irRoot : CPath)
    (fs : FS) (ts : List ConvTask)
    (hone : ts.countP (fun t => t.fails) = 1)
    (hnd : (ts.map fun t => irPath irRoot t.rel).Nodup) :
    (runTasks nfkc conv irRoot fs 0 0 ts).2.2 = 1 ∧
    (runTasks nfkc conv irRoot fs 0 0 ts).2.1 + 1 = ts.length ∧
    ∀ t ∈ ts, t.fails = false → supportedTask t →
      (runTasks nfkc conv irRoot fs 0 0 ts).1 (irPath irRoot t.rel) =
        some (sanitize (normalize nfkc (taskText conv t)) ++ "\n") := by
  have hc := runTasks_counts nfkc conv irRoot ts fs 0 0
  refine ⟨?_, ?_,
    fun t ht htf hts => runTasks_writes nfkc conv irRoot ts fs 0 0 hnd t ht htf hts⟩
  · rw [hc.2, hone]
  · rw [hc.1]
    have hl := countP_not_fails ts
    omega

/-- C5, witness: in a three-file batch whose middle worker raises, the
counts are (2 processed, 1 failed) and the last file's IRFile holds its
sanitized content. -/
theorem convert_isolates_failure_witness :
    (runTasks id id ["ir"] (fun _ => none) 0 0
      [⟨["a.md"], "hello", false⟩, ⟨["bad.html"], "x", true⟩,
        ⟨["b.md"], "bye", false⟩]).2.2 = 1 ∧
    (runTasks id id ["ir"] (fun _ => none) 0 0
      [⟨["a.md"], "hello", false⟩, ⟨["bad.html"], "x", true⟩,
        ⟨["b.md"], "bye", false⟩]).2.1 + 1 = 3 ∧
    (runTasks id id ["ir"] (fun _ => none) 0 0
      [⟨["a.md"], "hello", false⟩, ⟨["bad.html"], "x", true⟩,
        ⟨["b.md"], "bye", false⟩]).1 (irPath ["ir"] ["b.md"]) = some "bye\n" := by
  have h := convert_isolates_failure id id ["ir"] (fun _ => none)
    [⟨["a.md"], "hello", false⟩, ⟨["bad.html"], "x", true⟩, ⟨["b.md"], "bye", false⟩]
    (by decide) (by decide)
  refine ⟨h.1, h.2.1, ?_⟩
  have h3 := h.2.2 ⟨["b.md"], "bye", false⟩ (by decide) rfl (Or.inr (by decide))
  exact h3.trans (by decide)

/-- C6, counterexample: the aggregation keeps only two counters; a
discovered file with an unsupported extension is counted exactly like a
successfully written file — the counters after one unsupported file equal
the counters after one written `.md` file — and no output is written for
it; there is no separate skipped count. -/
theorem convert_no_skip_count :
    (runTasks id id ["ir"] (fun _ => none) 0 0 [⟨["notes.txt"], "z", false⟩]).2 = (1, 0) ∧
    (runTasks id id ["ir"] (fun _ => none) 0 0 [⟨["a.md"], "hi", false⟩]).2 = (1, 0) ∧
    (runTasks id id ["ir"] (fun _ => none) 0 0
      [⟨["notes.txt"], "z", false⟩]).1 ["ir", "notes.md"] = none := by
  decide

/-- C6 (amended): `convert` aggregates two counts — processed, the workers
that completed without exception (including skipped unsupported files,
which write no output), and failed, the workers that raised; a worker
exception is counted as failed and an unsupported file leaves the file
system unchanged. -/
theorem convert_two_counts (nfkc conv : String → String) (irRoot : CPath)
    (fs fs' : FS) (ts : List ConvTask) (t : ConvTask)
    (h1 : pySuffix (lastComp t.rel) ≠ ".html")
    (h2 : pySuffix (lastComp t.rel) ≠ ".md") :
    (runTasks nfkc conv irRoot fs 0 0 ts).2.1 = ts.countP (fun u => !u.fails) ∧
    (runTasks nfkc conv irRoot fs 0 0 ts).2.2 = ts.countP (fun u => u.fails) ∧
    ∀ q, processFile nfkc conv irRoot fs' t.rel t.raw q = fs' q := by
  have hc := runTasks_counts nfkc conv irRoot ts fs 0 0
  refine ⟨?_, ?_, fun q => processFile_skip nfkc conv irRoot fs' t.rel t.raw h1 h2 q⟩
  · rw [hc.1, Nat.zero_add]
  · rw [hc.2, Nat.zero_add]

/-- C6, witness: one unsupported file plus one failing file give counts
(1, 1), and the unsupported file's would-be output path stays absent. -/
theorem convert_two_counts_witness :
    (runTasks id id ["ir"] (fun _ => none) 0 0
      [⟨["readme"], "r", false⟩, ⟨["x.md"], "y", true⟩]).2.1 = 1 ∧
    (runTasks id id ["ir"] (fun _ => none) 0 0
      [⟨["readme"], "r", false⟩, ⟨["x.md"], "y", true⟩]).2.2 = 1 ∧
    processFile id id ["ir"] (fun _ => none) ["readme"] "r" ["ir", "readme.md"] = none := by
  have h := convert_two_counts id id ["ir"] (fun _ => none) (fun _ => none)
    [⟨["readme"], "r", false⟩, ⟨["x.md"], "y", true⟩] ⟨["readme"], "r", false⟩
    (by decide) (by decide)
  exact ⟨h.1.trans (by decide), h.2.1.trans (by decide), h.2.2 ["ir", "readme.md"]⟩

/-- C7, counterexample: a second consecutive `# ` heading line overwrites
the title before any nonempty body line is reached, so the title is not
the remainder of the first heading line. -/
theorem genTitle_overwrite :
    genTitle ["# A", "# B", "body"] = some "B" ∧
      genTitle ["# A", "# B", "body"] ≠ some "A" := by
  decide

/-- C7 (amended): when at most one line of the file starts with `# `, the
extracted title is the trimmed remainder of that unique heading line (and
no heading yields no title); in general a later heading line occurring
before the first nonempty non-heading line after a heading overwrites the
title. -/
theorem genTitle_unique_heading :
    ∀ (ls : List String), (ls.filter isHeading).length ≤ 1 →
      genTitle ls = (ls.find? isHeading).map fun l => pyStrip ⟨l.data.drop 2⟩
  | [] => fun _ => rfl
  | l :: ls => fun h => by
    unfold genTitle at *
    by_cases hh : isHeading l
    · rw [genTitleAux, if_pos hh, List.find?_cons_of_pos _ hh]
      have hfe : ls.filter isHeading = [] := by
        rw [List.filter_cons_of_pos hh] at h
        simp only [List.length_cons] at h
        have hzero : (ls.filter isHeading).length = 0 := by omega
        exact List.eq_nil_of_length_eq_zero hzero
      have hnh : ∀ x ∈ ls, ¬ isHeading x := fun x hx =>
        by simpa using List.filter_eq_nil_iff.mp hfe x hx
      rw [genTitleAux_no_heading ls _ hnh]
      rfl
    · rw [genTitleAux, if_neg hh, List.find?_cons_of_neg _ hh,
        if_neg (by simp [pyTruthy])]
      rw [List.filter_cons_of_neg hh] at h
      exact genTitle_unique_heading ls h

/-- C7, witness of the amended theorem: a file with a single heading line
yields that heading's trimmed remainder. -/
theorem genTitle_unique_heading_witness :
    genTitle ["intro", "# Title ", "body"] = some "Title" := by
  rw [genTitle_unique_heading ["intro", "# Title ", "body"] (by decide)]
  decide

/-- C8: `normalize` — NFKC normalization followed by whole-blob trimming —
is idempotent, given the two facts of the Unicode standard that NFKC is
idempotent and that trimming whitespace off a normalized string leaves it
normalized (whitespace code points are starters that never participate in
a canonical composition). -/
theorem normalize_idem (nfkc : String → String)
    (hn : ∀ s, nfkc (nfkc s) = nfkc s)
    (hstable : ∀ s, nfkc (pyStrip (nfkc s)) = pyStrip (nfkc s)) (x : String) :
    normalize nfkc (normalize nfkc x) = normalize nfkc x := by
  unfold normalize
  rw [hstable x, pyStrip_idem]

/-- C8, witness with the identity as the (idempotent, strip-stable)
normalization at a concrete string. -/
theorem normalize_idem_witness :
    normalize id (normalize id "  spaced out\t") = normalize id "  spaced out\t" :=
  normalize_idem id (fun _ => rfl) (fun _ => rfl) "  spaced out\t"

/-- C9: sanitize strips links keeping the visible text — the inline-link
example keeps `docs`, the reference-link example keeps `ref-link`, a lone
link-reference definition line becomes empty. -/
theorem sanitize_link_stripping :
    sanitize "See [docs](http://example.com/x) for more" = "See docs for more" ∧
      sanitize "[ref-link][1]" = "ref-link" ∧
      sanitize "[1]: http://example.com" = "" := by
  decide

/-- C10, counterexample: the input `"\n"` has one line under `splitlines`
but its sanitized output is empty with zero lines — rejoining with `\n`
does not re-materialise a trailing empty line, so the line count is not
always preserved. -/
theorem sanitize_drops_trailing_line :
    (pySplitlines (sanitize "\n").data).length = 0 ∧
      (pySplitlines ("\n" : String).data).length = 1 ∧
      (pySplitlines (sanitize "\n").data).length ≠
        (pySplitlines ("\n" : String).data).length := by
  decide

/-- C10 (amended): sanitize rewrites each `splitlines` line independently
and rejoins with `\n` (so every other line-break convention becomes `\n`
and each output line depends only on the corresponding input line); the
list of rewritten lines has exactly the input's line count, and the
output's `splitlines` is that list except that one final empty rewritten
line is dropped by the join. -/
theorem sanitize_line_structure (s : String) :
    (sanitize s).data = joinNL ((pySplitlines s.data).map sanitizeLine) ∧
    pySplitlines (sanitize s).data =
      dropTrailingEmptyLine ((pySplitlines s.data).map sanitizeLine) ∧
    ((pySplitlines s.data).map sanitizeLine).length = (pySplitlines s.data).length := by
  refine ⟨rfl, ?_, by simp⟩
  exact pySplitlines_joinNL _
    (sanitize_line_map_breakfree _ fun l hl => pySplitlines_breakfree l hl)

end Wiki
